import Mathlib

/-!
Shallow embedding of `src/obsidian_import.py` (IdeaFlowCo/obsidian-import).

Modelling conventions:
* Python strings are `List Char` (`Chars`); lines never contain a newline
  because they come from splitting on newline characters.
* `generate_token_id` (a random 8-character uuid slice) is modelled by a
  counter state: functions take the next free id `c : Nat` and return the
  advanced counter; the id generated at counter value `c` is `c` itself.
  Only freshness and call order matter to the source, never the text of
  an id.
* A Python dict is an association list in insertion order: `dictInsert`
  overwrites the value in place for an existing key and appends a new
  key at the end, `dictLookup` finds the unique entry, exactly like
  Python dict assignment and `dict.get`.
* The filesystem walk of `obsidian_to_ideaflow_link_mapping` is abstracted
  as the list of filenames in enumeration order.
-/

set_option maxRecDepth 10000

namespace ObsImport

abbrev Chars := List Char

/-- Python `str.split()` / `str.strip()` whitespace (ASCII subset used here). -/
def isWs (ch : Char) : Bool :=
  ch = ' ' || ch = '\t' || ch = '\n' || ch = '\r' || ch = '\x0b' || ch = '\x0c'

/-- `begnsWith p s` is Python `s.startswith(p)`. -/
def begnsWith : Chars → Chars → Bool
  | [], _ => true
  | _ :: _, [] => false
  | p :: ps, ch :: cs => p = ch && begnsWith ps cs

/-- Python `line.split()`: split on whitespace runs, dropping empty tokens.
`acc` accumulates the current word in reverse. -/
def pySplitAux : Chars → Chars → List Chars
  | [], acc => if acc.isEmpty then [] else [acc.reverse]
  | ch :: rest, acc =>
    if isWs ch then
      if acc.isEmpty then pySplitAux rest [] else acc.reverse :: pySplitAux rest []
    else pySplitAux rest (ch :: acc)

def pySplit (s : Chars) : List Chars := pySplitAux s []

/-- Python `s.strip()`. -/
def pyStrip (s : Chars) : Chars := ((s.dropWhile isWs).reverse.dropWhile isWs).reverse

/-- The character class of the URL regex in `parse_by_word`:
`[a-zA-Z]`, `[0-9]`, `[$-_@.&+]` (a range from `$` to `_` plus four
characters already inside that range) and `[!*\\(\\),]`.  A percent sign
lies in the `$`-to-`_` range, so the `%[0-9a-fA-F][0-9a-fA-F]` alternative
of the regex never adds a word that this class does not already admit. -/
def isUrlChar (ch : Char) : Bool :=
  ('a' ≤ ch && ch ≤ 'z') || ('A' ≤ ch && ch ≤ 'Z') || ('0' ≤ ch && ch ≤ '9')
    || ('$' ≤ ch && ch ≤ '_') || ch = '@' || ch = '.' || ch = '&' || ch = '+'
    || ch = '!' || ch = '*' || ch = '\\' || ch = '(' || ch = ')' || ch = ','

def urlHttp : Chars := ['h', 't', 't', 'p', ':', '/', '/']
def urlHttps : Chars := ['h', 't', 't', 'p', 's', ':', '/', '/']

/-- `re.match(r'http[s]?://(?:...)+', word)`: an anchored prefix match of
`http://` or `https://` followed by at least one class character (one
class character suffices for the `+`; every unit of the alternation,
including a percent-encoded octet, begins with a class character). -/
def matchesUrl (w : Chars) : Bool :=
  if begnsWith urlHttp w then
    match w.drop 7 with
    | ch :: _ => isUrlChar ch
    | [] => false
  else if begnsWith urlHttps w then
    match w.drop 8 with
    | ch :: _ => isUrlChar ch
    | [] => false
  else false

/-- The inline element dicts built by the source: text runs (with their
always-empty `marks` list), URL links, hashtags, checkbox markers and
cross-note `spaceship` references. -/
inductive Elem where
  | text (marks : List Chars) (content : Chars)
  | link (content : Chars) (slug : Chars)
  | hashtag (content : Chars)
  | checkbox (isChecked : Bool)
  | spaceship (linkedNoteId : Nat) (tokenId : Nat)
deriving DecidableEq

def hashMark : Chars := ['#']

/-- The word classification of the loop body of `parse_by_word`. -/
def classify (w : Chars) : Elem :=
  if matchesUrl w then Elem.link w w
  else if begnsWith hashMark w then Elem.hashtag w
  else Elem.text [] w

def spaceElem : Elem := Elem.text [] [' ']

/-- The `enumerate` loop of `parse_by_word`: classify each word and put a
single literal-space text element between consecutive words (never after
the last one). -/
def pbwAux : List Chars → List Elem
  | [] => []
  | [w] => [classify w]
  | w :: ws => classify w :: spaceElem :: pbwAux ws

def parse_by_word (line : Chars) : List Elem := pbwAux (pySplit line)

/-- Title-to-identifier mapping (a Python dict). -/
abbrev Mapping := List (Chars × Nat)

def dictLookup : Mapping → Chars → Option Nat
  | [], _ => none
  | (k, v) :: rest, key => if k = key then some v else dictLookup rest key

/-- Python `d[key] = v`: overwrite in place, or append a fresh key. -/
def dictInsert : Mapping → Chars → Nat → Mapping
  | [], key, v => [(key, v)]
  | (k, w) :: rest, key, v =>
    if k = key then (key, v) :: rest else (k, w) :: dictInsert rest key v

/-- Python `filename.replace('.md', '')`: remove every non-overlapping
occurrence of `.md`, scanning left to right. -/
def replaceMd : Chars → Chars
  | '.' :: 'm' :: 'd' :: rest => replaceMd rest
  | ch :: rest => ch :: replaceMd rest
  | [] => []

/-- `filename.replace('.md', '').replace('#', '')`. -/
def pyTitle (f : Chars) : Chars := (replaceMd f).filter (fun ch => ch ≠ '#')

def mdSuffix : Chars := ['.', 'm', 'd']

/-- Python `filename.endswith('.md')`. -/
def endsWithMd (f : Chars) : Bool := begnsWith mdSuffix.reverse f.reverse

/-- The file loop of `obsidian_to_ideaflow_link_mapping`, threading the
dict being built and the id counter. -/
def buildAux : List Chars → Mapping → Nat → Mapping × Nat
  | [], m, c => (m, c)
  | f :: fs, m, c =>
    if endsWithMd f then buildAux fs (dictInsert m (pyTitle f) c) (c + 1)
    else buildAux fs m c

/-- `obsidian_to_ideaflow_link_mapping`, with the walk abstracted as the
filename list. -/
def obsidian_to_ideaflow_link_mapping (files : List Chars) (c : Nat) : Mapping × Nat :=
  (buildAux files [] c)

def countMd (files : List Chars) : Nat := (files.filter endsWithMd).length

def lbrk : Chars := ['[', '[']
def rbrk : Chars := [']', ']']

/-- The non-greedy kernel of the regex `\[\[(.*?)\]\]`: consume characters
until the earliest `]]`, returning the minimal title and the rest of the
input after that `]]`. -/
def scanTitle : Chars → Option (Chars × Chars)
  | [] => none
  | ch :: rest =>
    if ch = ']' ∧ rest.head? = some (']') then some ([], rest.tail)
    else (scanTitle rest).map (fun p => (ch :: p.1, p.2))

/-- `re.finditer(r'\[\[(.*?)\]\]', line)` as the list of
`(m.group(), m.start(), m.end())` triples: scan left to right for `[[`,
take the minimal title up to the earliest `]]`, resume after the match.
The recursion resumes on `rest.tail.drop (t.length + 2)`, which is the
suffix `scanTitle` returns; `fuel` (instantiated with the length of the
string, which every step shortens) only makes the recursion structural. -/
def fiFuel : Nat → Chars → Nat → List (Chars × Nat × Nat)
  | 0, _, _ => []
  | _ + 1, [], _ => []
  | fuel + 1, ch :: rest, pos =>
    if ch = '[' ∧ rest.head? = some ('[') then
      match scanTitle rest.tail with
      | some (t, _) =>
        (lbrk ++ t ++ rbrk, pos, pos + t.length + 4)
          :: fiFuel fuel (rest.tail.drop (t.length + 2)) (pos + t.length + 4)
      | none => fiFuel fuel rest (pos + 1)
    else fiFuel fuel rest (pos + 1)

def finditer (s : Chars) (pos : Nat) : List (Chars × Nat × Nat) := fiFuel s.length s pos

/-- The default-branch loop of `parse_line`: walk the match list keeping
`last_pos`, inline-parsing each plain span before a link and emitting a
`spaceship` element per link.  Per link the source calls
`generate_token_id` twice: once eagerly as the default argument of
`mapping.get` and once for the `tokenId` field. -/
def processLinks (line : Chars) (mapping : Mapping) :
    List (Chars × Nat × Nat) → Nat → Nat → List Elem × Nat
  | [], lastPos, c =>
    (if lastPos < line.length then parse_by_word (line.drop lastPos) else [], c)
  | (link, start, _stop) :: rest, lastPos, c =>
    let pre :=
      if lastPos < start then parse_by_word ((line.drop lastPos).take (start - lastPos))
      else []
    let linkedNote := (link.drop 2).take (link.length - 4)
    let target := (dictLookup mapping linkedNote).getD c
    let tailRes := processLinks line mapping rest _stop (c + 2)
    (pre ++ Elem.spaceship target (c + 1) :: tailRes.1, tailRes.2)

/-- One list item dict: the source wraps the inline content of a bullet in
a single paragraph dict (whose id is `tokenId`) inside the list item. -/
structure ListItem where
  tokenId : Nat
  content : List Elem
  depth : Nat
deriving DecidableEq

/-- Result of `parse_line` together with its `content_type`:
`elems` is the element array with content type `paragraph`,
`list` is the list dict with content type `list`. -/
inductive ParseResult where
  | elems (es : List Elem)
  | list (items : List ListItem)
deriving DecidableEq

def bulletMark : Chars := ['*', ' ']
def cbUnchecked : Chars := ['-', ' ', '[', ' ', ']', ' ']
def cbChecked : Chars := ['-', ' ', '[', 'x', ']', ' ']

/-- `parse_line` of the source, id generation threaded through `c`. -/
def parse_line (line : Chars) (mapping : Mapping) (c : Nat) : ParseResult × Nat :=
  if begnsWith bulletMark line then
    let strippedLine := line.dropWhile isWs
    let leadingSpaces := line.length - strippedLine.length
    let depth := leadingSpaces / 4
    let content := parse_by_word (line.drop 2)
    (ParseResult.list [⟨c, content, depth⟩], c + 1)
  else if begnsWith cbUnchecked line || begnsWith cbChecked line then
    (ParseResult.elems (Elem.checkbox (begnsWith cbChecked line) :: parse_by_word (line.drop 6)), c)
  else
    let res := processLinks line mapping (finditer line 0) 0 c
    (ParseResult.elems res.1, res.2)

/-- A line-level token emitted by `convert_to_tokens`. -/
inductive Token where
  | paragraph (tokenId : Nat) (content : List Elem)
  | list (items : List ListItem)
deriving DecidableEq

/-- Python `content.split("\n")` (keeps empty pieces; `""` gives `[""]`). -/
def splitNewlines (s : Chars) : List Chars := s.splitOnP (fun ch => ch = '\n')

/-- The per-line loop of `convert_to_tokens`: a non-blank line draws a
token id, is parsed, and a list result is appended as-is while any other
result is wrapped in a paragraph with that id; a blank line becomes an
empty paragraph with a fresh id. -/
def cttGo (mapping : Mapping) : List Chars → Nat → List Token × Nat
  | [], c => ([], c)
  | p :: ps, c =>
    if pyStrip p ≠ [] then
      let res := parse_line p mapping (c + 1)
      let rest := cttGo mapping ps res.2
      match res.1 with
      | ParseResult.list items => (Token.list items :: rest.1, rest.2)
      | ParseResult.elems es => (Token.paragraph c es :: rest.1, rest.2)
    else
      let rest := cttGo mapping ps (c + 1)
      (Token.paragraph c [] :: rest.1, rest.2)

def convert_to_tokens (content : Chars) (mapping : Mapping) (c : Nat) : List Token × Nat :=
  cttGo mapping (splitNewlines content) c

/-! ### Observations used by the claims -/

/-- The `content` string of an element (elements without a content field
contribute the empty string). -/
def elemContent : Elem → Chars
  | Elem.text _ s => s
  | Elem.link s _ => s
  | Elem.hashtag s => s
  | Elem.checkbox _ => []
  | Elem.spaceship _ _ => []

def concatContents (es : List Elem) : Chars := (es.map elemContent).flatten

def isCrossRef : Elem → Bool
  | Elem.spaceship _ _ => true
  | _ => false

def spaceshipTargets (es : List Elem) : List Nat :=
  es.filterMap (fun e => match e with | Elem.spaceship lid _ => some lid | _ => none)

/-- The wrapping step of `convert_to_tokens` for a non-blank line: a list
result is kept as-is, any other result is wrapped in a paragraph carrying
the id drawn just before the parse. -/
def wrapToken (tid : Nat) : ParseResult → Token
  | ParseResult.list items => Token.list items
  | ParseResult.elems es => Token.paragraph tid es

/-- All inline elements held by a parse result (for a list result, the
content of its items). -/
def elemsOfResult : ParseResult → List Elem
  | ParseResult.elems es => es
  | ParseResult.list items => (items.map ListItem.content).flatten

/-- Words joined back with single spaces. -/
def joinWords : List Chars → Chars
  | [] => []
  | [w] => w
  | w :: ws => w ++ ' ' :: joinWords ws

/-- The line with surrounding whitespace removed and every internal
whitespace run collapsed to one space: its words joined by single
spaces. -/
def trimCollapse (s : Chars) : Chars := joinWords (pySplit s)

/-- The transformation named by the claim wording read literally: collapse
only the internal whitespace runs, keeping leading and trailing
whitespace of the line as they were. -/
def collapseInternal (s : Chars) : Chars :=
  (s.takeWhile isWs) ++ trimCollapse (pyStrip s) ++ (s.reverse.takeWhile isWs).reverse

/-- Expected spaceship targets for a scanned match list: the mapped id
when the title is a key, else the id generated as the eagerly evaluated
default argument (the first of the two ids drawn per link). -/
def linkTargetsSpec (m : Mapping) : List (Chars × Nat × Nat) → Nat → List Nat
  | [], _ => []
  | (link, _, _) :: rest, c =>
    ((dictLookup m ((link.drop 2).take (link.length - 4))).getD c) :: linkTargetsSpec m rest (c + 2)

/-- A line presented as interleaved plain spans and bracketed titles:
`segJoin [(s1, t1), ..., (sn, tn)] tail` is `s1[[t1]]...sn[[tn]]tail`. -/
def segJoin : List (Chars × Chars) → Chars → Chars
  | [], tail => tail
  | (s, t) :: rest, tail => s ++ lbrk ++ t ++ rbrk ++ segJoin rest tail

/-- A span with no bracket characters at all, so the double-bracket
occurrences of a `segJoin` decomposition are exactly its `n` titles. -/
def noBrk : Chars → Bool
  | [] => true
  | ch :: rest => if ch = '[' ∨ ch = ']' then false else noBrk rest

/-- The matches `finditer` is expected to produce on a `segJoin`
decomposition, with their positions. -/
def segMatches : List (Chars × Chars) → Nat → List (Chars × Nat × Nat)
  | [], _ => []
  | (s, t) :: rest, pos =>
    (lbrk ++ t ++ rbrk, pos + s.length, pos + s.length + t.length + 4)
      :: segMatches rest (pos + s.length + t.length + 4)

/-- The element sequence the default branch is expected to emit on a
`segJoin` decomposition: the inline-parsed plain span before each link,
one spaceship per link, then the inline-parsed tail. -/
def segElems (m : Mapping) : List (Chars × Chars) → Chars → Nat → List Elem
  | [], tail, _ => parse_by_word tail
  | (s, t) :: rest, tail, c =>
    parse_by_word s
      ++ Elem.spaceship ((dictLookup m t).getD c) (c + 1) :: segElems m rest tail (c + 2)

def countSpaceship (es : List Elem) : Nat := (es.filter isCrossRef).length

/-! ### State-threaded variants for the frame claim

Python passes the title dict by reference into `parse_line` and
`convert_to_tokens`, so mutation would be visible to the caller.  The
variants below thread the dict as explicit state through every dict
operation the source performs; `dictGetS` is Python `dict.get(key, dflt)`,
which reads and never writes. -/

def dictGetS (m : Mapping) (key : Chars) (dflt : Nat) : Nat × Mapping :=
  ((dictLookup m key).getD dflt, m)

def processLinksS (line : Chars) :
    List (Chars × Nat × Nat) → Nat → Nat → Mapping → List Elem × Nat × Mapping
  | [], lastPos, c, m =>
    (if lastPos < line.length then parse_by_word (line.drop lastPos) else [], c, m)
  | (link, start, _stop) :: rest, lastPos, c, m =>
    let pre :=
      if lastPos < start then parse_by_word ((line.drop lastPos).take (start - lastPos))
      else []
    let linkedNote := (link.drop 2).take (link.length - 4)
    let got := dictGetS m linkedNote c
    let tailRes := processLinksS line rest _stop (c + 2) got.2
    (pre ++ Elem.spaceship got.1 (c + 1) :: tailRes.1, tailRes.2)

def parse_lineS (line : Chars) (mapping : Mapping) (c : Nat) : ParseResult × Nat × Mapping :=
  if begnsWith bulletMark line then
    let strippedLine := line.dropWhile isWs
    let leadingSpaces := line.length - strippedLine.length
    let depth := leadingSpaces / 4
    let content := parse_by_word (line.drop 2)
    (ParseResult.list [⟨c, content, depth⟩], c + 1, mapping)
  else if begnsWith cbUnchecked line || begnsWith cbChecked line then
    (ParseResult.elems (Elem.checkbox (begnsWith cbChecked line) :: parse_by_word (line.drop 6)),
      c, mapping)
  else
    let res := processLinksS line (finditer line 0) 0 c mapping
    (ParseResult.elems res.1, res.2)

def cttGoS : List Chars → Nat → Mapping → List Token × Nat × Mapping
  | [], c, m => ([], c, m)
  | p :: ps, c, m =>
    if pyStrip p ≠ [] then
      let res := parse_lineS p m (c + 1)
      let rest := cttGoS ps res.2.1 res.2.2
      match res.1 with
      | ParseResult.list items => (Token.list items :: rest.1, rest.2)
      | ParseResult.elems es => (Token.paragraph c es :: rest.1, rest.2)
    else
      let rest := cttGoS ps (c + 1) m
      (Token.paragraph c [] :: rest.1, rest.2)

def convert_to_tokensS (content : Chars) (mapping : Mapping) (c : Nat) :
    List Token × Nat × Mapping :=
  cttGoS (splitNewlines content) c mapping

/-! ## Basic lemmas -/

theorem begnsWith_iff {p s : Chars} : begnsWith p s = true ↔ ∃ t, s = p ++ t := by
  induction p generalizing s with
  | nil => simp [begnsWith]
  | cons a ps ih =>
    cases s with
    | nil => simp [begnsWith]
    | cons b bs =>
      simp only [begnsWith, Bool.and_eq_true, decide_eq_true_eq, ih, List.cons_append,
        List.cons.injEq]
      constructor
      · rintro ⟨rfl, t, rfl⟩; exact ⟨t, rfl, rfl⟩
      · rintro ⟨t, rfl, rfl⟩; exact ⟨rfl, t, rfl⟩

theorem elemContent_classify (w : Chars) : elemContent (classify w) = w := by
  simp only [classify]
  split
  · rfl
  split <;> rfl

theorem isCrossRef_classify (w : Chars) : isCrossRef (classify w) = false := by
  simp only [classify]
  split
  · rfl
  split <;> rfl

theorem pbwAux_no_crossRef {ws : List Chars} {e : Elem} (h : e ∈ pbwAux ws) :
    isCrossRef e = false := by
  induction ws with
  | nil => simp [pbwAux] at h
  | cons w ws ih =>
    cases ws with
    | nil =>
      simp only [pbwAux, List.mem_singleton] at h
      subst h; exact isCrossRef_classify w
    | cons x xs =>
      simp only [pbwAux, List.mem_cons] at h
      rcases h with rfl | rfl | h
      · exact isCrossRef_classify w
      · rfl
      · exact ih (by simpa [pbwAux] using h)

theorem pbw_no_crossRef {s : Chars} {e : Elem} (h : e ∈ parse_by_word s) :
    isCrossRef e = false :=
  pbwAux_no_crossRef h

theorem pbw_nil : parse_by_word ([] : Chars) = [] := rfl

theorem spaceshipTargets_pbw (s : Chars) : spaceshipTargets (parse_by_word s) = [] := by
  unfold spaceshipTargets
  rw [List.filterMap_eq_nil_iff]
  intro e he
  have h := pbw_no_crossRef he
  cases e <;> simp_all [isCrossRef]

theorem concat_pbwAux (ws : List Chars) : concatContents (pbwAux ws) = joinWords ws := by
  induction ws with
  | nil => rfl
  | cons w ws ih =>
    cases ws with
    | nil => simp [pbwAux, joinWords, concatContents, elemContent_classify]
    | cons x xs =>
      simp only [pbwAux, joinWords, concatContents, List.map_cons, List.flatten_cons] at ih ⊢
      rw [elemContent_classify]
      simp only [spaceElem, elemContent] at ih ⊢
      rw [ih]
      simp

theorem cb_not_bullet {line : Chars}
    (h : begnsWith cbUnchecked line = true ∨ begnsWith cbChecked line = true) :
    begnsWith bulletMark line = false := by
  rcases h with h | h <;> rcases begnsWith_iff.mp h with ⟨t, rfl⟩ <;> rfl

/-! ## Dictionary and mapping-builder lemmas -/

theorem dictLookup_insert_self (m : Mapping) (k : Chars) (v : Nat) :
    dictLookup (dictInsert m k v) k = some v := by
  induction m with
  | nil => simp [dictInsert, dictLookup]
  | cons p rest ih =>
    obtain ⟨k1, v1⟩ := p
    by_cases hk : k1 = k
    · subst hk; simp [dictInsert, dictLookup]
    · simp [dictInsert, dictLookup, hk, ih]

theorem dictLookup_insert_ne (m : Mapping) (k key : Chars) (v : Nat) (h : key ≠ k) :
    dictLookup (dictInsert m k v) key = dictLookup m key := by
  have h2 : ¬ k = key := fun hh => h hh.symm
  induction m with
  | nil => simp [dictInsert, dictLookup, h2]
  | cons p rest ih =>
    obtain ⟨k1, v1⟩ := p
    by_cases hk : k1 = k
    · subst hk
      simp only [dictInsert, if_pos rfl, dictLookup]
      rw [if_neg h2, if_neg h2]
    · simp only [dictInsert, if_neg hk, dictLookup, ih]

theorem dictLookup_insert_isSome (m : Mapping) (k key : Chars) (v : Nat)
    (h : (dictLookup m key).isSome = true) :
    (dictLookup (dictInsert m k v) key).isSome = true := by
  by_cases hk : key = k
  · subst hk; simp [dictLookup_insert_self]
  · rw [dictLookup_insert_ne m k key v hk]; exact h

theorem dictLookup_eq_none_iff (m : Mapping) (k : Chars) :
    dictLookup m k = none ↔ k ∉ m.map Prod.fst := by
  induction m with
  | nil => simp [dictLookup]
  | cons p rest ih =>
    obtain ⟨k1, v1⟩ := p
    by_cases hk : k1 = k
    · subst hk; simp [dictLookup]
    · have hk2 : ¬ k = k1 := fun hh => hk hh.symm
      simp [dictLookup, hk, ih, hk2]

theorem dictInsert_keys (m : Mapping) (k : Chars) (v : Nat) :
    (dictInsert m k v).map Prod.fst =
      if k ∈ m.map Prod.fst then m.map Prod.fst else m.map Prod.fst ++ [k] := by
  induction m with
  | nil => simp [dictInsert]
  | cons p rest ih =>
    obtain ⟨k1, v1⟩ := p
    by_cases hk : k1 = k
    · subst hk; simp [dictInsert]
    · have hk2 : ¬ k = k1 := fun hh => hk hh.symm
      simp only [dictInsert, if_neg hk, List.map_cons, List.mem_cons, ih]
      by_cases hmem : k ∈ rest.map Prod.fst <;> simp [hmem, hk2]

theorem dictInsert_nodup (m : Mapping) (k : Chars) (v : Nat)
    (h : (m.map Prod.fst).Nodup) : ((dictInsert m k v).map Prod.fst).Nodup := by
  rw [dictInsert_keys]
  by_cases hmem : k ∈ m.map Prod.fst
  · simpa [hmem] using h
  · simp only [hmem, if_false]
    simp [List.nodup_append, h, hmem]

theorem buildAux_lookup_isSome (files : List Chars) (m : Mapping) (c : Nat) (key : Chars)
    (h : (dictLookup m key).isSome = true) :
    (dictLookup (buildAux files m c).1 key).isSome = true := by
  induction files generalizing m c with
  | nil => simpa [buildAux] using h
  | cons g fs ih =>
    by_cases hg : endsWithMd g = true
    · simp only [buildAux, hg, if_true]
      exact ih _ _ (dictLookup_insert_isSome m (pyTitle g) key c h)
    · simp only [buildAux, hg, if_false]
      exact ih _ _ h

theorem buildAux_mem_isSome (files : List Chars) (m : Mapping) (c : Nat) :
    ∀ f ∈ files, endsWithMd f = true →
      (dictLookup (buildAux files m c).1 (pyTitle f)).isSome = true := by
  induction files generalizing m c with
  | nil => simp
  | cons g fs ih =>
    intro f hf hmd
    rcases List.mem_cons.mp hf with rfl | hf
    · simp only [buildAux, hmd, if_true]
      exact buildAux_lookup_isSome fs _ _ _ (by simp [dictLookup_insert_self])
    · by_cases hg : endsWithMd g = true
      · simp only [buildAux, hg, if_true]
        exact ih _ _ f hf hmd
      · simp only [buildAux, hg, if_false]
        exact ih _ _ f hf hmd

theorem buildAux_lookup_of_not_mem (files : List Chars) (m : Mapping) (c : Nat) (key : Chars)
    (h : ∀ f ∈ files, endsWithMd f = true → pyTitle f ≠ key) :
    dictLookup (buildAux files m c).1 key = dictLookup m key := by
  induction files generalizing m c with
  | nil => simp [buildAux]
  | cons g fs ih =>
    by_cases hg : endsWithMd g = true
    · simp only [buildAux, hg, if_true]
      rw [ih _ _ (fun f hf hmd => h f (List.mem_cons_of_mem g hf) hmd)]
      exact dictLookup_insert_ne m (pyTitle g) key c
        (fun hh => h g (List.mem_cons_self g fs) hg hh.symm)
    · simp only [buildAux, hg, if_false]
      exact ih _ _ (fun f hf hmd => h f (List.mem_cons_of_mem g hf) hmd)

theorem buildAux_lookup_mem (files : List Chars) (m : Mapping) (c : Nat) (key : Chars)
    (h : (dictLookup (buildAux files m c).1 key).isSome = true) :
    (dictLookup m key).isSome = true ∨
      ∃ f ∈ files, endsWithMd f = true ∧ pyTitle f = key := by
  induction files generalizing m c with
  | nil => left; simpa [buildAux] using h
  | cons g fs ih =>
    by_cases hg : endsWithMd g = true
    · simp only [buildAux, hg, if_true] at h
      rcases ih _ _ h with h1 | ⟨f, hf, hmd, hk⟩
      · by_cases hkey : key = pyTitle g
        · exact Or.inr ⟨g, List.mem_cons_self g fs, hg, hkey.symm⟩
        · left
          rwa [dictLookup_insert_ne m (pyTitle g) key c hkey] at h1
      · exact Or.inr ⟨f, List.mem_cons_of_mem g hf, hmd, hk⟩
    · simp only [buildAux, hg, if_false] at h
      rcases ih _ _ h with h1 | ⟨f, hf, hmd, hk⟩
      · exact Or.inl h1
      · exact Or.inr ⟨f, List.mem_cons_of_mem g hf, hmd, hk⟩

theorem buildAux_nodup (files : List Chars) (m : Mapping) (c : Nat)
    (h : (m.map Prod.fst).Nodup) : ((buildAux files m c).1.map Prod.fst).Nodup := by
  induction files generalizing m c with
  | nil => simpa [buildAux] using h
  | cons g fs ih =>
    by_cases hg : endsWithMd g = true
    · simp only [buildAux, hg, if_true]
      exact ih _ _ (dictInsert_nodup m (pyTitle g) c h)
    · simp only [buildAux, hg, if_false]
      exact ih _ _ h

theorem countMd_cons (g : Chars) (l : List Chars) :
    countMd (g :: l) = if endsWithMd g then countMd l + 1 else countMd l := by
  simp only [countMd, List.filter_cons]
  by_cases hg : endsWithMd g = true <;> simp [hg]

theorem buildAux_last_wins (l1 : List Chars) (f : Chars) (l2 : List Chars)
    (m : Mapping) (c : Nat) (hmd : endsWithMd f = true)
    (hlast : ∀ g ∈ l2, endsWithMd g = true → pyTitle g ≠ pyTitle f) :
    dictLookup (buildAux (l1 ++ f :: l2) m c).1 (pyTitle f) = some (c + countMd l1) := by
  induction l1 generalizing m c with
  | nil =>
    simp only [List.nil_append, buildAux, hmd, if_true, countMd]
    rw [buildAux_lookup_of_not_mem l2 _ _ _ hlast, dictLookup_insert_self]
    simp [List.filter]
  | cons g gs ih =>
    cases hg : endsWithMd g with
    | true =>
      simp only [List.cons_append, buildAux, hg, if_true, List.append_eq]
      rw [ih _ _, countMd_cons]
      simp only [hg, if_true]
      congr 1
      omega
    | false =>
      simp only [List.cons_append, buildAux, hg, Bool.false_eq_true, if_false, List.append_eq]
      rw [ih _ _, countMd_cons]
      simp [hg]

/-! ## Claim theorems -/

/-- C1 (code divergence, evaluated at the failing input): the line
consisting of four spaces of indentation, a bullet and `a` is not
classified as a list item at all -- `line.startswith('* ')` is false for
any indented line, so `parse_line` treats it as a default paragraph and
the claimed list-item node of depth 1 is never produced (the depth
computation of the list branch is unreachable for indented lines, and
yields 0 on the reachable ones). -/
theorem C1_indented_bullet_is_plain :
    (parse_line (("    * a").toList) [] 0).1 =
      ParseResult.elems [Elem.text [] (("*").toList), spaceElem, Elem.text [] (("a").toList)] := by
  decide

/-- C2 (counterexample): for the filename `a.md.md` the source computes the
key `a` -- `filename.replace('.md', '')` removes every occurrence of
`.md`, not only the extension suffix -- so the claimed key `a.md` is
absent from the mapping. -/
theorem C2_replace_all_counterexample :
    (obsidian_to_ideaflow_link_mapping [(("a.md.md").toList)] 0).1 = [((("a").toList), 0)] ∧
    dictLookup (obsidian_to_ideaflow_link_mapping [(("a.md.md").toList)] 0).1 (("a.md").toList)
      = none := by
  decide

/-- C2 (amended): for every enumeration of filenames, every file ending in
`.md` has an entry under the key obtained by removing every occurrence of
`.md` and all `#` characters from its name (all occurrences, not only the
extension suffix); only such keys occur; each key occurs exactly once; and
the id of the last `.md` file normalizing to a given key wins on a
collision, without error (the id assigned to a file is `c` plus the number
of `.md` files enumerated before it). -/
theorem C2_mapping_amended (files : List Chars) (c : Nat) :
    (∀ f ∈ files, endsWithMd f = true →
      (dictLookup (obsidian_to_ideaflow_link_mapping files c).1 (pyTitle f)).isSome = true) ∧
    (∀ k, (dictLookup (obsidian_to_ideaflow_link_mapping files c).1 k).isSome = true →
      ∃ f ∈ files, endsWithMd f = true ∧ pyTitle f = k) ∧
    ((obsidian_to_ideaflow_link_mapping files c).1.map Prod.fst).Nodup ∧
    (∀ l1 f l2, files = l1 ++ f :: l2 → endsWithMd f = true →
      (∀ g ∈ l2, endsWithMd g = true → pyTitle g ≠ pyTitle f) →
      dictLookup (obsidian_to_ideaflow_link_mapping files c).1 (pyTitle f)
        = some (c + countMd l1)) := by
  refine ⟨?_, ?_, ?_, ?_⟩
  · exact buildAux_mem_isSome files [] c
  · intro k hk
    rcases buildAux_lookup_mem files [] c k hk with h1 | h2
    · simp [dictLookup] at h1
    · exact h2
  · exact buildAux_nodup files [] c (by simp)
  · intro l1 f l2 hsplit hmd hlast
    rw [hsplit]
    exact buildAux_last_wins l1 f l2 [] c hmd hlast

/-- C2 (witness): two files normalizing to the same title `x`; the later
file wins and its id is `0 + 1`. -/
theorem C2_mapping_witness :
    dictLookup
      (obsidian_to_ideaflow_link_mapping [(("x.md").toList), (("x#.md").toList)] 0).1
      (("x").toList) = some 1 := by
  have h := (C2_mapping_amended [(("x.md").toList), (("x#.md").toList)] 0).2.2.2
    [(("x.md").toList)] (("x#.md").toList) [] rfl (by decide) (by decide)
  exact h

/-- C3 (counterexample): the line consisting of a space and `a` has no
URL, hashtag or link in it and no internal whitespace run, yet the
concatenated parse output is `a`, not the original line ` a`: the parser
also discards leading (and trailing) whitespace. -/
theorem C3_leading_space_counterexample :
    (∀ w ∈ pySplit ((" a").toList), matchesUrl w = false ∧ begnsWith hashMark w = false) ∧
    concatContents (parse_by_word ((" a").toList)) = (("a").toList) ∧
    collapseInternal ((" a").toList) = ((" a").toList) ∧
    concatContents (parse_by_word ((" a").toList)) ≠ collapseInternal ((" a").toList) := by
  decide

/-- C3 (amended): for every line, in particular every plain line whose
words are neither URLs nor hashtags, concatenating the content fields of
the inline-parse output reproduces the line with surrounding whitespace
removed and internal whitespace runs collapsed to single spaces. -/
theorem C3_concat_contents_amended (line : Chars)
    (_h : ∀ w ∈ pySplit line, matchesUrl w = false ∧ begnsWith hashMark w = false) :
    concatContents (parse_by_word line) = trimCollapse line :=
  concat_pbwAux (pySplit line)

/-- C3 (witness): a plain two-word line with an internal double space. -/
theorem C3_concat_contents_witness :
    concatContents (parse_by_word (("hello  world").toList))
        = trimCollapse (("hello  world").toList) ∧
    trimCollapse (("hello  world").toList) = (("hello world").toList) :=
  ⟨C3_concat_contents_amended (("hello  world").toList) (by decide), by decide⟩

/-- C6: a line starting with a checkbox prefix parses to a paragraph-kind
element array whose head is the checkbox marker, checked exactly when the
`x` variant is the prefix, followed by the inline parse of the line after
its first 6 characters. -/
theorem C6_checkbox_line (line : Chars) (m : Mapping) (c : Nat)
    (h : begnsWith cbUnchecked line = true ∨ begnsWith cbChecked line = true) :
    (parse_line line m c).1 =
      ParseResult.elems
        (Elem.checkbox (begnsWith cbChecked line) :: parse_by_word (line.drop 6)) := by
  have hb := cb_not_bullet h
  have h2 : (begnsWith cbUnchecked line || begnsWith cbChecked line) = true := by
    rcases h with h | h <;> simp [h]
  simp [parse_line, hb, h2]

/-- C6 (witness): the checked checkbox line `- [x] done`. -/
theorem C6_checkbox_witness :
    (parse_line (("- [x] done").toList) [] 0).1 =
      ParseResult.elems
        (Elem.checkbox (begnsWith cbChecked (("- [x] done").toList))
          :: parse_by_word ((("- [x] done").toList).drop 6)) :=
  C6_checkbox_line (("- [x] done").toList) [] 0 (Or.inr (by decide))

/-- C8: the inline parser returns the empty sequence on the empty string:
no word element and no separator space element. -/
theorem C8_empty_line : parse_by_word ([] : Chars) = [] := rfl

/-- C10: on a line classified as a list item or as a checkbox line, the
remainder goes through the word-level parser only, so no cross-note
reference element is ever emitted, whatever double brackets the line
contains. -/
theorem C10_no_crossref_outside_default (line : Chars) (m : Mapping) (c : Nat)
    (h : begnsWith bulletMark line = true ∨
      (begnsWith cbUnchecked line = true ∨ begnsWith cbChecked line = true)) :
    ∀ e ∈ elemsOfResult (parse_line line m c).1, isCrossRef e = false := by
  intro e he
  rcases h with h | h
  · simp only [parse_line, h, if_true, elemsOfResult, List.map_cons, List.map_nil,
      List.flatten_cons, List.flatten_nil, List.append_nil] at he
    exact pbw_no_crossRef he
  · have hb := cb_not_bullet h
    have h2 : (begnsWith cbUnchecked line || begnsWith cbChecked line) = true := by
      rcases h with h | h <;> simp [h]
    simp only [parse_line, hb, h2, Bool.false_eq_true, if_false, if_true,
      elemsOfResult, List.mem_cons] at he
    rcases he with rfl | he
    · rfl
    · exact pbw_no_crossRef he

/-- C10 (witness): a bullet line containing a double-bracket link whose
title is even a key of the mapping still yields zero cross-note
references. -/
theorem C10_no_crossref_witness :
    countSpaceship (elemsOfResult
      (parse_line (("* see [[A]]").toList) [((("A").toList), 5)] 0).1) = 0 := by
  have h := C10_no_crossref_outside_default (("* see [[A]]").toList)
    [((("A").toList), 5)] 0 (Or.inl (by decide))
  have hfil : (elemsOfResult (parse_line (("* see [[A]]").toList)
      [((("A").toList), 5)] 0).1).filter isCrossRef = [] := by
    rw [List.filter_eq_nil_iff]
    intro e he
    simp [h e he]
  simp only [countSpaceship]
  rw [hfil]
  rfl

/-! ## Frame lemmas for C9 -/

theorem processLinksS_mapping (line : Chars) (links : List (Chars × Nat × Nat))
    (lastPos c : Nat) (m : Mapping) :
    (processLinksS line links lastPos c m).2.2 = m := by
  induction links generalizing lastPos c with
  | nil => simp [processLinksS]
  | cons hd rest ih =>
    obtain ⟨link, start, stop⟩ := hd
    simp only [processLinksS, dictGetS]
    exact ih stop (c + 2)

theorem parse_lineS_mapping (line : Chars) (m : Mapping) (c : Nat) :
    (parse_lineS line m c).2.2 = m := by
  unfold parse_lineS
  split
  · rfl
  split
  · rfl
  · exact processLinksS_mapping line (finditer line 0) 0 c m

theorem cttGoS_mapping (ls : List Chars) (c : Nat) (m : Mapping) :
    (cttGoS ls c m).2.2 = m := by
  induction ls generalizing c m with
  | nil => rfl
  | cons p ps ih =>
    by_cases hp : pyStrip p = []
    · simp only [cttGoS]
      rw [if_neg (by simp [hp])]
      exact ih (c + 1) m
    · simp only [cttGoS]
      rw [if_pos hp]
      have hm := parse_lineS_mapping p m (c + 1)
      cases hres : (parse_lineS p m (c + 1)).1 with
      | list items =>
        simp only [hres]
        rw [ih, hm]
      | elems es =>
        simp only [hres]
        rw [ih, hm]

/-- C9: the title mapping is read-only during tokenization: threading the
dict through every dictionary operation the source performs, both
`parse_line` and `convert_to_tokens` return it unchanged -- in particular
the placeholder id generated for an unresolved link is never inserted. -/
theorem C9_mapping_read_only (content line : Chars) (m : Mapping) (c : Nat) :
    (parse_lineS line m c).2.2 = m ∧ (convert_to_tokensS content m c).2.2 = m :=
  ⟨parse_lineS_mapping line m c, cttGoS_mapping (splitNewlines content) c m⟩

/-! ## Lemmas for C4 -/

theorem spaceshipTargets_append (a b : List Elem) :
    spaceshipTargets (a ++ b) = spaceshipTargets a ++ spaceshipTargets b := by
  simp [spaceshipTargets, List.filterMap_append]

theorem spaceshipTargets_cons_spaceship (lid tid : Nat) (l : List Elem) :
    spaceshipTargets (Elem.spaceship lid tid :: l) = lid :: spaceshipTargets l := by
  simp [spaceshipTargets, List.filterMap_cons]

theorem processLinks_targets (line : Chars) (m : Mapping)
    (links : List (Chars × Nat × Nat)) :
    ∀ lastPos c, spaceshipTargets (processLinks line m links lastPos c).1
      = linkTargetsSpec m links c := by
  induction links with
  | nil =>
    intro lastPos c
    simp only [processLinks, linkTargetsSpec]
    by_cases h : lastPos < line.length
    · rw [if_pos h]; exact spaceshipTargets_pbw _
    · rw [if_neg h]; rfl
  | cons hd rest ih =>
    intro lastPos c
    obtain ⟨link, start, stop⟩ := hd
    simp only [processLinks, linkTargetsSpec]
    have hpre : spaceshipTargets (if lastPos < start then
        parse_by_word ((line.drop lastPos).take (start - lastPos)) else []) = [] := by
      by_cases h : lastPos < start
      · rw [if_pos h]; exact spaceshipTargets_pbw _
      · rw [if_neg h]; rfl
    rw [spaceshipTargets_append, hpre, spaceshipTargets_cons_spaceship, ih stop (c + 2)]
    rfl

/-- C4: on a plain (non-list, non-checkbox) line the emitted cross-note
references carry, in scan order, the mapped identifier of each scanned
title when the title is a key of the mapping, and otherwise the freshly
generated placeholder identifier (the eagerly evaluated default argument
of `mapping.get`, the first of the two identifiers drawn for that link);
`parse_line` is total, so an absent title raises no error. -/
theorem C4_crossref_targets (line : Chars) (m : Mapping) (c : Nat)
    (h1 : begnsWith bulletMark line = false)
    (h2 : begnsWith cbUnchecked line = false)
    (h3 : begnsWith cbChecked line = false) :
    spaceshipTargets (elemsOfResult (parse_line line m c).1)
      = linkTargetsSpec m (finditer line 0) c := by
  simp only [parse_line, h1, h2, h3, Bool.or_self, Bool.false_eq_true, if_false, elemsOfResult]
  exact processLinks_targets line m (finditer line 0) 0 c

/-- C4 (witness): `A` is mapped to 7; `Zz` is unmapped and receives the
placeholder id 2, the first id drawn for the second link. -/
theorem C4_crossref_witness :
    spaceshipTargets (elemsOfResult (parse_line (("see [[A]] and [[Zz]]").toList)
      [((("A").toList), 7)] 0).1) = [7, 2] :=
  (C4_crossref_targets (("see [[A]] and [[Zz]]").toList) [((("A").toList), 7)] 0
    (by decide) (by decide) (by decide)).trans (by decide)

/-! ## Lemmas for C5 -/

theorem cttGo_spec (ls : List Chars) (m : Mapping) :
    ∀ c, ((cttGo m ls c).1.length = ls.length) ∧
      (∀ (i : Nat) (l : Chars), ls[i]? = some l → pyStrip l = [] →
        ∃ tid, ((cttGo m ls c).1)[i]? = some (Token.paragraph tid [])) ∧
      (∀ (i : Nat) (l : Chars), ls[i]? = some l → pyStrip l ≠ [] →
        ∃ c0, ((cttGo m ls c).1)[i]?
          = some (wrapToken c0 (parse_line l m (c0 + 1)).1)) := by
  induction ls with
  | nil =>
    intro c
    refine ⟨rfl, ?_, ?_⟩ <;> intro i l hl <;> simp at hl
  | cons p ps ih =>
    intro c
    by_cases hp : pyStrip p = []
    · have hblk : cttGo m (p :: ps) c
          = (Token.paragraph c [] :: (cttGo m ps (c + 1)).1, (cttGo m ps (c + 1)).2) := by
        simp only [cttGo]
        rw [if_neg (by simp [hp])]
      refine ⟨?_, ?_, ?_⟩
      · rw [hblk]; simp [(ih (c + 1)).1]
      · intro i l hl hstrip
        rw [hblk]
        cases i with
        | zero => exact ⟨c, by simp⟩
        | succ i =>
          simp only [List.getElem?_cons_succ] at hl ⊢
          exact (ih (c + 1)).2.1 i l hl hstrip
      · intro i l hl hstrip
        rw [hblk]
        cases i with
        | zero =>
          simp only [List.getElem?_cons_zero, Option.some.injEq] at hl
          subst hl
          exact absurd hp hstrip
        | succ i =>
          simp only [List.getElem?_cons_succ] at hl ⊢
          exact (ih (c + 1)).2.2 i l hl hstrip
    · have hnb : cttGo m (p :: ps) c =
          (wrapToken c (parse_line p m (c + 1)).1
            :: (cttGo m ps (parse_line p m (c + 1)).2).1,
           (cttGo m ps (parse_line p m (c + 1)).2).2) := by
        simp only [cttGo]
        rw [if_pos hp]
        cases hres : (parse_line p m (c + 1)).1 <;> simp [hres, wrapToken]
      refine ⟨?_, ?_, ?_⟩
      · rw [hnb]; simp [(ih _).1]
      · intro i l hl hstrip
        rw [hnb]
        cases i with
        | zero =>
          simp only [List.getElem?_cons_zero, Option.some.injEq] at hl
          subst hl
          exact absurd hstrip (by simp [hp])
        | succ i =>
          simp only [List.getElem?_cons_succ] at hl ⊢
          exact (ih _).2.1 i l hl hstrip
      · intro i l hl hstrip
        rw [hnb]
        cases i with
        | zero =>
          simp only [List.getElem?_cons_zero, Option.some.injEq] at hl
          subst hl
          exact ⟨c, by simp⟩
        | succ i =>
          simp only [List.getElem?_cons_succ] at hl ⊢
          exact (ih _).2.2 i l hl hstrip

/-- C5: the tokenizer emits exactly one line-level token per line of the
newline split, in input order: the token list has the same length as the
line list, a line that is blank after stripping yields a paragraph token
with a fresh id and empty content at the same index, and a non-blank line
yields at the same index exactly the token built from the parse of that
line (a list result is appended as-is, anything else is wrapped in a
paragraph carrying the id drawn just before the parse). -/
theorem C5_line_token_parity (content : Chars) (m : Mapping) (c : Nat) :
    ((convert_to_tokens content m c).1.length = (splitNewlines content).length) ∧
    (∀ (i : Nat) (l : Chars), (splitNewlines content)[i]? = some l → pyStrip l = [] →
      ∃ tid, ((convert_to_tokens content m c).1)[i]? = some (Token.paragraph tid [])) ∧
    (∀ (i : Nat) (l : Chars), (splitNewlines content)[i]? = some l → pyStrip l ≠ [] →
      ∃ c0, ((convert_to_tokens content m c).1)[i]?
        = some (wrapToken c0 (parse_line l m (c0 + 1)).1)) :=
  cttGo_spec (splitNewlines content) m c

/-! ## Lemmas for C7: the bracket scan on a decomposed line -/

theorem fiFuel_fuel_irrel : ∀ (f1 f2 : Nat) (s : Chars) (pos : Nat),
    s.length ≤ f1 → s.length ≤ f2 → fiFuel f1 s pos = fiFuel f2 s pos := by
  intro f1
  induction f1 with
  | zero =>
    intro f2 s pos h1 _h2
    have hs : s = [] := List.eq_nil_of_length_eq_zero (Nat.le_zero.mp h1)
    subst hs
    cases f2 <;> rfl
  | succ f1 ih =>
    intro f2 s pos h1 h2
    cases s with
    | nil => cases f2 <;> rfl
    | cons ch rest =>
      cases f2 with
      | zero => simp at h2
      | succ f2 =>
        simp only [List.length_cons] at h1 h2
        simp only [fiFuel]
        by_cases hcond : ch = '[' ∧ rest.head? = some ('[')
        · rw [if_pos hcond, if_pos hcond]
          cases hscan : scanTitle rest.tail with
          | none =>
            exact ih f2 rest (pos + 1) (by omega) (by omega)
          | some p =>
            obtain ⟨t, r⟩ := p
            have hlen : (rest.tail.drop (t.length + 2)).length ≤ rest.length := by
              simp only [List.length_drop, List.length_tail]
              omega
            show ((lbrk ++ t ++ rbrk, pos, pos + t.length + 4)
                :: fiFuel f1 (rest.tail.drop (t.length + 2)) (pos + t.length + 4))
              = ((lbrk ++ t ++ rbrk, pos, pos + t.length + 4)
                :: fiFuel f2 (rest.tail.drop (t.length + 2)) (pos + t.length + 4))
            exact congrArg (List.cons _)
              (ih f2 (rest.tail.drop (t.length + 2)) (pos + t.length + 4)
                (by omega) (by omega))
        · rw [if_neg hcond, if_neg hcond]
          exact ih f2 rest (pos + 1) (by omega) (by omega)

theorem finditer_skip (ch : Char) (rest : Chars) (pos : Nat)
    (h : ¬ (ch = '[' ∧ rest.head? = some ('['))) :
    finditer (ch :: rest) pos = finditer rest (pos + 1) := by
  show fiFuel (ch :: rest).length (ch :: rest) pos = fiFuel rest.length rest (pos + 1)
  simp only [List.length_cons, fiFuel]
  rw [if_neg h]

theorem finditer_noBrk : ∀ (s : Chars) (pos : Nat), noBrk s = true →
    finditer s pos = [] := by
  intro s
  induction s with
  | nil => intro pos _h; rfl
  | cons ch rest ih =>
    intro pos h
    simp only [noBrk] at h
    by_cases hc : ch = '[' ∨ ch = ']'
    · rw [if_pos hc] at h; simp at h
    · rw [if_neg hc] at h
      rw [finditer_skip ch rest pos (fun hcc => hc (Or.inl hcc.1))]
      exact ih (pos + 1) h

theorem finditer_skipAll : ∀ (s u : Chars) (pos : Nat), noBrk s = true →
    finditer (s ++ u) pos = finditer u (pos + s.length) := by
  intro s
  induction s with
  | nil => intro u pos _h; simp
  | cons ch rest ih =>
    intro u pos h
    simp only [noBrk] at h
    by_cases hc : ch = '[' ∨ ch = ']'
    · rw [if_pos hc] at h; simp at h
    · rw [if_neg hc] at h
      rw [List.cons_append,
        finditer_skip ch (rest ++ u) pos (fun hcc => hc (Or.inl hcc.1)),
        ih u (pos + 1) h]
      congr 1
      simp only [List.length_cons]
      omega

theorem scanTitle_closed : ∀ (t rest : Chars), noBrk t = true →
    scanTitle (t ++ ']' :: ']' :: rest) = some (t, rest) := by
  intro t
  induction t with
  | nil => intro rest _h; rfl
  | cons ch t ih =>
    intro rest h
    simp only [noBrk] at h
    by_cases hc : ch = '[' ∨ ch = ']'
    · rw [if_pos hc] at h; simp at h
    · rw [if_neg hc] at h
      simp only [List.cons_append, List.append_eq, scanTitle]
      rw [if_neg (fun hcc => hc (Or.inr hcc.1)), ih rest h]
      rfl

theorem drop_titleClose : ∀ (t rest : Chars),
    (t ++ ']' :: ']' :: rest).drop (t.length + 2) = rest := by
  intro t
  induction t with
  | nil => intro rest; rfl
  | cons ch t ih =>
    intro rest
    have hl : (ch :: t).length + 2 = (t.length + 2) + 1 := by
      simp only [List.length_cons]
    rw [List.cons_append]
    rw [hl]
    rw [List.drop_succ_cons]
    exact ih rest

theorem finditer_match (rest2 t r : Chars) (pos : Nat)
    (h : scanTitle rest2 = some (t, r)) :
    finditer ('[' :: '[' :: rest2) pos =
      (lbrk ++ t ++ rbrk, pos, pos + t.length + 4)
        :: finditer (rest2.drop (t.length + 2)) (pos + t.length + 4) := by
  have hfi : finditer ('[' :: '[' :: rest2) pos
      = (lbrk ++ t ++ rbrk, pos, pos + t.length + 4)
        :: fiFuel (rest2.length + 1) (rest2.drop (t.length + 2)) (pos + t.length + 4) := by
    show fiFuel (rest2.length + 1 + 1) ('[' :: '[' :: rest2) pos = _
    rw [fiFuel]
    rw [if_pos ⟨rfl, rfl⟩]
    rw [List.tail_cons, h]
  rw [hfi]
  exact congrArg (List.cons _)
    (fiFuel_fuel_irrel (rest2.length + 1) (rest2.drop (t.length + 2)).length
      (rest2.drop (t.length + 2)) (pos + t.length + 4)
      (by simp only [List.length_drop]; omega) (Nat.le_refl _))

theorem finditer_segJoin : ∀ (segs : List (Chars × Chars)) (tail : Chars) (pos : Nat),
    (∀ p ∈ segs, noBrk p.1 = true ∧ noBrk p.2 = true) → noBrk tail = true →
    finditer (segJoin segs tail) pos = segMatches segs pos := by
  intro segs
  induction segs with
  | nil => intro tail pos _hs ht; exact finditer_noBrk tail pos ht
  | cons sg rest ih =>
    intro tail pos hs ht
    obtain ⟨s, t⟩ := sg
    have hs1 : noBrk s = true := (hs (s, t) (List.mem_cons_self _ _)).1
    have ht1 : noBrk t = true := (hs (s, t) (List.mem_cons_self _ _)).2
    have hshape : segJoin ((s, t) :: rest) tail
        = s ++ ('[' :: '[' :: (t ++ ']' :: ']' :: segJoin rest tail)) := by
      simp [segJoin, lbrk, rbrk]
    rw [hshape, finditer_skipAll s _ pos hs1,
      finditer_match (t ++ ']' :: ']' :: segJoin rest tail) t (segJoin rest tail)
        (pos + s.length) (scanTitle_closed t _ ht1),
      drop_titleClose, ih tail _ (fun p hp => hs p (List.mem_cons_of_mem _ hp)) ht]
    simp [segMatches]

theorem drop_seg : ∀ (s t R : Chars),
    (s ++ ('[' :: '[' :: (t ++ ']' :: ']' :: R))).drop (s.length + t.length + 4) = R := by
  intro s
  induction s with
  | nil =>
    intro t R
    have hl : ([] : Chars).length + t.length + 4 = (t.length + 2) + 1 + 1 := by
      simp only [List.length_nil]; omega
    rw [List.nil_append, hl, List.drop_succ_cons, List.drop_succ_cons, drop_titleClose]
  | cons ch s ih =>
    intro t R
    have hl : (ch :: s).length + t.length + 4 = (s.length + t.length + 4) + 1 := by
      simp only [List.length_cons]; omega
    rw [List.cons_append, hl, List.drop_succ_cons, ih t R]

theorem processLinks_segJoin : ∀ (segs : List (Chars × Chars)) (tail : Chars)
    (m : Mapping) (line : Chars) (base c : Nat),
    base ≤ line.length → line.drop base = segJoin segs tail →
    processLinks line m (segMatches segs base) base c
      = (segElems m segs tail c, c + 2 * segs.length) := by
  intro segs
  induction segs with
  | nil =>
    intro tail m line base c _hb hdrop
    simp only [segJoin] at hdrop
    simp only [segMatches, processLinks, segElems]
    by_cases hlt : base < line.length
    · rw [if_pos hlt, hdrop]
      simp
    · rw [if_neg hlt]
      have hnil : line.drop base = [] := List.drop_eq_nil_of_le (by omega)
      rw [hnil] at hdrop
      rw [← hdrop]
      simp [pbw_nil]
  | cons sg rest ih =>
    intro tail m line base c hb hdrop
    obtain ⟨s, t⟩ := sg
    have hshape : segJoin ((s, t) :: rest) tail
        = s ++ ('[' :: '[' :: (t ++ ']' :: ']' :: segJoin rest tail)) := by
      simp [segJoin, lbrk, rbrk]
    rw [hshape] at hdrop
    have hlen : line.length = base + (s.length + t.length + 4 + (segJoin rest tail).length) := by
      have h1 : (line.drop base).length = line.length - base := List.length_drop _ _
      rw [hdrop] at h1
      simp only [List.length_cons, List.length_append] at h1
      omega
    simp only [segMatches, processLinks, segElems]
    have hpre : (if base < base + s.length then
        parse_by_word ((line.drop base).take (base + s.length - base)) else [])
        = parse_by_word s := by
      cases s with
      | nil =>
        rw [if_neg (by simp)]
        exact pbw_nil.symm
      | cons a s2 =>
        rw [if_pos (by simp only [List.length_cons]; omega)]
        have hsub : base + (a :: s2).length - base = (a :: s2).length := by omega
        rw [hsub, hdrop, List.take_left]
    have hnote : (((lbrk ++ t ++ rbrk).drop 2).take ((lbrk ++ t ++ rbrk).length - 4)) = t := by
      have h1 : lbrk ++ t ++ rbrk = '[' :: '[' :: (t ++ rbrk) := by simp [lbrk]
      rw [h1]
      have h2 : ('[' :: '[' :: (t ++ rbrk)).length - 4 = t.length := by
        simp only [List.length_cons, List.length_append, List.length_nil, rbrk]
        omega
      rw [h2]
      show (t ++ rbrk).take t.length = t
      exact List.take_left t rbrk
    have hdropStep : line.drop (base + s.length + t.length + 4) = segJoin rest tail := by
      have h1 : line.drop (base + s.length + t.length + 4)
          = (line.drop base).drop (s.length + t.length + 4) := by
        rw [List.drop_drop]
        congr 1
        omega
      rw [h1, hdrop, drop_seg]
    have hrec := ih tail m line (base + s.length + t.length + 4) (c + 2)
      (by omega) hdropStep
    rw [hpre, hnote, hrec]
    simp only [List.length_cons, Prod.mk.injEq]
    constructor
    · try rfl
      try trivial
    · omega

theorem countSpaceship_pbw (s : Chars) : countSpaceship (parse_by_word s) = 0 := by
  have hfil : (parse_by_word s).filter isCrossRef = [] := by
    rw [List.filter_eq_nil_iff]
    intro e he
    simp [pbw_no_crossRef he]
  simp [countSpaceship, hfil]

theorem countSpaceship_append (a b : List Elem) :
    countSpaceship (a ++ b) = countSpaceship a + countSpaceship b := by
  simp [countSpaceship, List.filter_append]

theorem countSpaceship_cons_spaceship (a b : Nat) (l : List Elem) :
    countSpaceship (Elem.spaceship a b :: l) = countSpaceship l + 1 := by
  simp [countSpaceship, List.filter_cons, isCrossRef]

theorem countSpaceship_segElems (m : Mapping) :
    ∀ (segs : List (Chars × Chars)) (tail : Chars) (c : Nat),
      countSpaceship (segElems m segs tail c) = segs.length := by
  intro segs
  induction segs with
  | nil => intro tail c; exact countSpaceship_pbw tail
  | cons sg rest ih =>
    intro tail c
    obtain ⟨s, t⟩ := sg
    simp only [segElems]
    rw [countSpaceship_append, countSpaceship_pbw, countSpaceship_cons_spaceship,
      ih tail (c + 2)]
    simp only [List.length_cons]
    omega

/-- C7: the bracket scan is non-greedy per pair.  Present a plain line as
interleaved bracket-free spans and bracketed titles,
`s1[[t1]]s2[[t2]]...sn[[tn]]tail`; then `parse_line` emits exactly `n`
cross-note reference elements, one per occurrence in left-to-right order,
each preceded by the inline parse of the plain span before it and
followed, after the last one, by the inline parse of the trailing span --
never one reference spanning two occurrences. -/
theorem C7_nongreedy_scan (segs : List (Chars × Chars)) (tail : Chars) (m : Mapping) (c : Nat)
    (hsegs : ∀ p ∈ segs, noBrk p.1 = true ∧ noBrk p.2 = true)
    (htail : noBrk tail = true)
    (h1 : begnsWith bulletMark (segJoin segs tail) = false)
    (h2 : begnsWith cbUnchecked (segJoin segs tail) = false)
    (h3 : begnsWith cbChecked (segJoin segs tail) = false) :
    (parse_line (segJoin segs tail) m c).1 = ParseResult.elems (segElems m segs tail c) ∧
    countSpaceship (segElems m segs tail c) = segs.length := by
  constructor
  · simp only [parse_line, h1, h2, h3, Bool.or_self, Bool.false_eq_true, if_false]
    rw [finditer_segJoin segs tail 0 hsegs htail,
      processLinks_segJoin segs tail m (segJoin segs tail) 0 c (Nat.zero_le _)
        (by rw [List.drop_zero])]
  · exact countSpaceship_segElems m segs tail c

/-- C7 (witness): the line `[[A]] x [[B]]` yields two references (never
one spanning both), with the plain span between them inline-parsed. -/
theorem C7_nongreedy_witness :
    (parse_line (("[[A]] x [[B]]").toList) [((("A").toList), 7)] 0).1 =
      ParseResult.elems
        [Elem.spaceship 7 1, Elem.text [] (("x").toList), Elem.spaceship 2 3] ∧
    countSpaceship (elemsOfResult
      (parse_line (("[[A]] x [[B]]").toList) [((("A").toList), 7)] 0).1) = 2 := by
  have h := C7_nongreedy_scan
    [(([] : Chars), (("A").toList)), (((" x ").toList), (("B").toList))]
    [] [((("A").toList), 7)] 0
    (by decide) (by decide) (by decide) (by decide) (by decide)
  exact ⟨h.1.trans (by decide), by decide⟩

/-- C5 (witness): the three-line note `a`, blank, `* b`: three tokens, and
the blank middle line yields an empty paragraph at index 1. -/
theorem C5_line_token_witness :
    ((convert_to_tokens (("a\n\n* b").toList) [] 0).1.length
        = (splitNewlines (("a\n\n* b").toList)).length) ∧
    ((convert_to_tokens (("a\n\n* b").toList) [] 0).1)[1]?
        = some (Token.paragraph 1 []) := by
  obtain ⟨_tid, _htid⟩ :=
    (C5_line_token_parity (("a\n\n* b").toList) [] 0).2.1 1 [] (by decide) (by decide)
  exact ⟨(C5_line_token_parity (("a\n\n* b").toList) [] 0).1, by decide⟩

end ObsImport
